import Mathlib

/-!
Verification of the yamlrun variable-resolution engine (`yamlrun/yaml.py`).

The Python source is shallowly embedded: YAML values become the inductive
type `Value`; Python dicts become insertion-ordered association lists with
overwrite-in-place semantics (`dictInsert`); the regular expressions of
`Yaml._replace_variables` become explicit scanners over `List Char`; the
process environment becomes an explicit lookup function.  `\w` is modelled
as ASCII `[A-Za-z0-9_]` and `\d` as ASCII digits (all inputs considered are
ASCII).
-/

set_option maxRecDepth 4096

/-- A YAML value as stored in the variable table: string, number, boolean,
ordered sequence, or string-keyed mapping (`yaml.safe_load` output as used
by the program). -/
inductive Value where
  | str (s : String)
  | int (n : Int)
  | bool (b : Bool)
  | list (xs : List Value)
  | dict (kvs : List (String × Value))

/-- Whether a value is a Python `str` (`isinstance(v, str)`). -/
def Value.isStr : Value → Bool
  | .str _ => true
  | _ => false

/-- First-match lookup in an association list; models Python `dict` lookup
(keys are kept unique by `dictInsert`). -/
def assocLookup (d : List (String × Value)) (k : String) : Option Value :=
  match d with
  | [] => none
  | (k', v) :: rest => if k' == k then some v else assocLookup rest k

/-- Python `dict` assignment `d[k] = v`: overwrite in place if the key is
present, else append at the end (insertion order preserved). -/
def dictInsert (d : List (String × Value)) (k : String) (v : Value) :
    List (String × Value) :=
  if d.any (fun kv => kv.1 == k) then
    d.map (fun kv => if kv.1 == k then (k, v) else kv)
  else
    d ++ [(k, v)]

/-- Keys of an association list. -/
def keysOf (d : List (String × Value)) : List String :=
  d.map Prod.fst

/-- Models Python regex `\w` restricted to ASCII: letters, digits, underscore. -/
def isWordChar (c : Char) : Bool :=
  c.isAlpha || c.isDigit || c == '_'

/-- A single or double quote character, the regex group `(?:"|')`. -/
def isQuoteChar (c : Char) : Bool :=
  c == '\x22' || c == '\x27'

/-- One bracketed subkey suffix of the reference regex: `(?:\[Q[\w_]+Q\])`,
`(?:\[\$[\w_]+\])` or `(?:\[\d+\])` where `Q` is a quote.  Returns the
consumed characters and the rest on success. -/
def matchOneSuffix (l : List Char) : Option (List Char × List Char) :=
  match l with
  | '[' :: rest =>
    match rest with
    | c :: cs =>
      if isQuoteChar c then
        let w := cs.takeWhile isWordChar
        match cs.dropWhile isWordChar with
        | q :: ']' :: r =>
          if isQuoteChar q && !w.isEmpty then
            some ('[' :: c :: (w ++ [q, ']']), r)
          else none
        | _ => none
      else if c == '$' then
        let w := cs.takeWhile isWordChar
        match cs.dropWhile isWordChar with
        | ']' :: r => if w.isEmpty then none else some ('[' :: '$' :: (w ++ [']']), r)
        | _ => none
      else if c.isDigit then
        let w := (c :: cs).takeWhile Char.isDigit
        match (c :: cs).dropWhile Char.isDigit with
        | ']' :: r => some ('[' :: (w ++ [']']), r)
        | _ => none
      else none
    | [] => none
  | _ => none

/-- Greedy chain of bracketed suffixes, the regex `(...)*` applied as many
times as possible (fuel-indexed; fuel `l.length` always suffices). -/
def matchSuffixes : Nat → List Char → List Char × List Char
  | 0, l => ([], l)
  | n + 1, l =>
    match matchOneSuffix l with
    | none => ([], l)
    | some (c, rest) =>
      let (cs, rest') := matchSuffixes n rest
      (c ++ cs, rest')

/-- Match one reference occurrence anchored at a `$`: the regex alternation
`\$[\w_]+SUF*|\${[\w_]+SUF*}`.  Returns the matched token and the rest. -/
def matchRefAt (l : List Char) : Option (List Char × List Char) :=
  match l with
  | '$' :: rest =>
    if rest.head? = some '\x7b' then
      let r := rest.tail
      let w := r.takeWhile isWordChar
      if w.isEmpty then none
      else
        let r1 := r.dropWhile isWordChar
        let (sufs, r2) := matchSuffixes r1.length r1
        match r2 with
        | '\x7d' :: r3 => some ('$' :: '\x7b' :: (w ++ sufs ++ ['\x7d']), r3)
        | _ => none
    else
      let w := rest.takeWhile isWordChar
      if w.isEmpty then none
      else
        let r1 := rest.dropWhile isWordChar
        let (sufs, r2) := matchSuffixes r1.length r1
        some ('$' :: (w ++ sufs), r2)
  | _ => none

/-- Left-to-right non-overlapping scan for reference occurrences, the
behaviour of `re.findall(pattern, parsed_str)` in `_replace_variables`. -/
def scanRefs : Nat → List Char → List String
  | 0, _ => []
  | _, [] => []
  | n + 1, c :: cs =>
    if c == '$' then
      match matchRefAt (c :: cs) with
      | some (tok, rest) => String.mk tok :: scanRefs n rest
      | none => scanRefs n cs
    else scanRefs n cs

/-- All reference substrings of a template, in order of occurrence
(`parsed_variables = re.findall(pattern, parsed_str)`, duplicates kept). -/
def findVars (s : String) : List String :=
  scanRefs s.data.length s.data

/-- Deduplication keeping first occurrences: the key order of the Python
dict comprehension `{k: k for k in parsed_variables}`. -/
def dedupFirstGo (seen : List String) : List String → List String
  | [] => []
  | x :: xs =>
    if seen.contains x then dedupFirstGo seen xs
    else x :: dedupFirstGo (x :: seen) xs

/-- Distinct matched reference substrings in first-occurrence order. -/
def dedupFirst (l : List String) : List String :=
  dedupFirstGo [] l

/-- Finds the end of one lazy capture of the subkey regex
`\[(?:'|")*(.*?)(?:'|")*\]`: the content grows one character at a time
until a maximal run of quotes followed by `]` is reached.  Returns the
captured content and the rest after the `]`. -/
def findCloser : Nat → List Char → List Char → Option (String × List Char)
  | 0, _, _ => none
  | n + 1, acc, l =>
    match l.dropWhile isQuoteChar with
    | ']' :: rest => some (String.mk acc.reverse, rest)
    | _ =>
      match l with
      | [] => none
      | c :: cs => findCloser n (c :: acc) cs

/-- Scan for all matches of `re.findall("\[('|\")*(.*?)('|\")*\]", var)`:
at each `[`, the leading quote run is consumed greedily, then the lazy
content is captured up to the closing quote-run-plus-`]`. -/
def subkeyScanGo : Nat → List Char → List String
  | 0, _ => []
  | _, [] => []
  | n + 1, c :: cs =>
    if c == '[' then
      match findCloser (cs.length + 1) [] (cs.dropWhile isQuoteChar) with
      | some (content, rest) => content :: subkeyScanGo n rest
      | none => subkeyScanGo n cs
    else subkeyScanGo n cs

/-- The bracketed subkey contents of one matched reference
(`subkeys = re.findall(regex, var)` in `_replace_variables`). -/
def subkeyScan (var : String) : List String :=
  subkeyScanGo var.data.length var.data

/-- The base-name part of a reference, the match of
`re.findall('^\${?[\w_]+}?', var)[0]`: a `$`, an optional `{`, a maximal
word run, and an immediately following `}` if present.  (On strings not
starting with a reference — unreachable for scanner tokens — the Python
code would raise `IndexError`; here `""` is returned.) -/
def rawBase (var : String) : String :=
  match var.data with
  | '$' :: rest =>
    if rest.head? = some '\x7b' then
      let r := rest.tail
      let w := r.takeWhile isWordChar
      let a := r.dropWhile isWordChar
      String.mk ('$' :: '\x7b' :: (w ++ (if a.head? = some '\x7d' then ['\x7d'] else [])))
    else
      let w := rest.takeWhile isWordChar
      let a := rest.dropWhile isWordChar
      String.mk ('$' :: (w ++ (if a.head? = some '\x7d' then ['\x7d'] else [])))
  | _ => ""

/-- A character stripped by Python `str.strip('${}')`. -/
def isDollarBraceChar (c : Char) : Bool :=
  c == '$' || c == '\x7b' || c == '\x7d'

/-- Python `str.strip(chars)`: remove the given characters from both ends. -/
def stripChars (p : Char → Bool) (s : String) : String :=
  String.mk (((s.data.dropWhile p).reverse.dropWhile p).reverse)

/-- Python `str.startswith('$')`. -/
def startsWithDollar (s : String) : Bool :=
  s.data.head? = some '$'

/-- Accumulating digit parser continuing a digit run, with single
underscores allowed between digits (Python numeric-literal rule). -/
def digitsAccum (acc : Nat) : List Char → Option Nat
  | [] => some acc
  | c :: cs =>
    if c.isDigit then digitsAccum (acc * 10 + (c.toNat - 48)) cs
    else if c == '_' then
      match cs with
      | c' :: cs' =>
        if c'.isDigit then digitsAccum (acc * 10 + (c'.toNat - 48)) cs' else none
      | [] => none
    else none

/-- Digit run with single underscores allowed between digits, as accepted
by Python `int()` (e.g. `int('1_2') = 12`). -/
def digitsValue : List Char → Option Nat
  | [] => none
  | c :: cs => if c.isDigit then digitsAccum (c.toNat - 48) cs else none

/-- Python `int()` applied to a string: optional surrounding whitespace,
optional sign, then digits (ASCII, underscores between digits allowed).
Returns `none` where Python raises `ValueError`. -/
def pyParseInt (s : String) : Option Int :=
  let l := (s.data.dropWhile (·.isWhitespace)).reverse.dropWhile (·.isWhitespace) |>.reverse
  match l with
  | '-' :: rest => (digitsValue rest).map (fun n => -(n : Int))
  | '+' :: rest => (digitsValue rest).map (fun n => (n : Int))
  | _ => (digitsValue l).map (fun n => (n : Int))

/-- Python `int(k)` on an arbitrary value: ints pass through, booleans
become `0`/`1`, strings are parsed, lists/dicts raise `TypeError`
(`none`). -/
def pyToInt : Value → Option Int
  | .int n => some n
  | .bool b => some (if b then 1 else 0)
  | .str s => pyParseInt s
  | _ => none

/-- Python sequence indexing with negative-index wrap-around:
`xs[i]` is defined for `-len ≤ i < len`, else `IndexError` (`none`). -/
def pyIndex {α : Type} (xs : List α) (i : Int) : Option α :=
  if 0 ≤ i ∧ i < (xs.length : Int) then xs.get? i.toNat
  else if -(xs.length : Int) ≤ i ∧ i < 0 then xs.get? (xs.length - (-i).toNat)
  else none

/-- The try-block of `_replace_variables`: apply the resolved subkeys in
order, starting from the base value.  Lists are indexed by `int(k)`;
dicts are subscripted with the subkey as-is (string keys only, so
non-string subkeys miss); strings are character-indexed by integer or
boolean subkeys (Python `str` subscription); other scalars are not
subscriptable.  `none` models any exception caught by the bare `except`. -/
def chainApply : Value → List Value → Option Value
  | v, [] => some v
  | .list xs, k :: ks =>
    (pyToInt k).bind fun i => (pyIndex xs i).bind fun v => chainApply v ks
  | .dict d, k :: ks =>
    match k with
    | .str s => (assocLookup d s).bind fun v => chainApply v ks
    | _ => none
  | .str s, k :: ks =>
    match k with
    | .int i => (pyIndex s.data i).bind fun c => chainApply (.str (String.mk [c])) ks
    | .bool b =>
      (pyIndex s.data (if b then 1 else 0)).bind fun c => chainApply (.str (String.mk [c])) ks
    | _ => none
  | _, _ :: _ => none

/-- `Yaml._environ`: the environment lookup honouring the `--noenv` flag.
`envf` is the process environment (`os.environ.get`); with `noenv` set the
result is always the empty string. -/
def environ (noenv : Bool) (envf : String → Option String) (name : String) : String :=
  if !noenv then (envf name).getD "" else ""

/-- Resolution of one matched reference substring (the body of the
`for var in parsed_variables` loop): split off the bracketed subkeys,
prepend the base, resolve `$`-prefixed tokens through the table with
environment fallback, then apply the subkey chain.  On any failure the
raw substring is kept (`var_replacements[var]` stays `var`). -/
def resolveVar (env : String → String) (vars : List (String × Value))
    (var : String) : Value :=
  let keys := rawBase var :: subkeyScan var
  let resolved := keys.map (fun k =>
    if startsWithDollar k then
      let k' := stripChars isDollarBraceChar k
      match assocLookup vars k' with
      | some v => v
      | none => .str (env k')
    else .str k)
  match resolved with
  | [] => .str var
  | base :: rest =>
    match chainApply base rest with
    | some v => v
    | none => .str var

/-- Hexadecimal digit character for `\uXXXX` escapes. -/
def hexDigitChar (n : Nat) : Char :=
  if n < 10 then Char.ofNat (48 + n) else Char.ofNat (97 + (n - 10))

/-- A `\uXXXX` escape for a 16-bit code unit. -/
def uEscape (n : Nat) : List Char :=
  '\\' :: 'u' :: [hexDigitChar (n / 4096 % 16), hexDigitChar (n / 256 % 16),
    hexDigitChar (n / 16 % 16), hexDigitChar (n % 16)]

/-- JSON escaping of one character as done by `json.dumps` with the default
`ensure_ascii=True` (non-ASCII becomes `\uXXXX`, astral characters become
surrogate pairs). -/
def jsonEscapeChar (c : Char) : List Char :=
  if c == '\x22' then ['\\', '\x22']
  else if c == '\\' then ['\\', '\\']
  else if c == '\n' then ['\\', 'n']
  else if c == '\t' then ['\\', 't']
  else if c == '\r' then ['\\', 'r']
  else if c == '\x08' then ['\\', 'b']
  else if c == '\x0c' then ['\\', 'f']
  else if c.toNat < 32 then uEscape c.toNat
  else if c.toNat < 127 then [c]
  else if c.toNat < 65536 then uEscape c.toNat
  else
    uEscape (55296 + (c.toNat - 65536) / 1024) ++ uEscape (56320 + (c.toNat - 65536) % 1024)

/-- JSON string escaping (`json.dumps` on a string, without the quotes). -/
def jsonEscape (s : String) : String :=
  String.mk (s.data.flatMap jsonEscapeChar)

/-- Indentation of `4 * d` spaces used by `json.dumps(..., indent=4)`. -/
def jsonIndent (d : Nat) : String :=
  String.mk (List.replicate (4 * d) ' ')

mutual

/-- `json.dumps(v, indent=4)` rendered at nesting depth `d`. -/
def jsonDumps : Nat → Value → String
  | _, .str s => "\x22" ++ jsonEscape s ++ "\x22"
  | _, .int n => toString n
  | _, .bool b => if b then "true" else "false"
  | _, .list [] => "[]"
  | d, .list (x :: xs) =>
    "[\n" ++ String.intercalate ",\n"
      ((jsonDumpsList (d + 1) (x :: xs)).map (fun it => jsonIndent (d + 1) ++ it))
      ++ "\n" ++ jsonIndent d ++ "]"
  | _, .dict [] => "\x7b\x7d"
  | d, .dict (kv :: kvs) =>
    "\x7b\n" ++ String.intercalate ",\n"
      ((jsonDumpsDict (d + 1) (kv :: kvs)).map (fun it => jsonIndent (d + 1) ++ it))
      ++ "\n" ++ jsonIndent d ++ "\x7d"

/-- Rendered items of a JSON array. -/
def jsonDumpsList : Nat → List Value → List String
  | _, [] => []
  | d, v :: vs => jsonDumps d v :: jsonDumpsList d vs

/-- Rendered `"key": value` items of a JSON object. -/
def jsonDumpsDict : Nat → List (String × Value) → List String
  | _, [] => []
  | d, (k, v) :: kvs =>
    ("\x22" ++ jsonEscape k ++ "\x22: " ++ jsonDumps d v) :: jsonDumpsDict d kvs

end

/-- The replacement text used in the rewrite loop of `_replace_variables`:
lists and dicts are `json.dumps(..., indent=4)`-serialized (wrapped in
single quotes when `add_quotes` is set); other values go through Python
`str()`. -/
def serializeRepl (addQuotes : Bool) (v : Value) : String :=
  match v with
  | .list xs => if addQuotes then "\x27" ++ jsonDumps 0 (.list xs) ++ "\x27" else jsonDumps 0 (.list xs)
  | .dict kvs => if addQuotes then "\x27" ++ jsonDumps 0 (.dict kvs) ++ "\x27" else jsonDumps 0 (.dict kvs)
  | .str s => s
  | .int n => toString n
  | .bool b => if b then "True" else "False"

/-- Python `str.replace`: replace each non-overlapping occurrence of `pat`
left to right (fuel-indexed; fuel `l.length` suffices for nonempty `pat`). -/
def replaceChars (pat rep : List Char) : Nat → List Char → List Char
  | _, [] => []
  | 0, l => l
  | n + 1, c :: cs =>
    if pat.isPrefixOf (c :: cs) then
      rep ++ replaceChars pat rep n ((c :: cs).drop pat.length)
    else
      c :: replaceChars pat rep n cs

/-- Python `s.replace(pat, rep)` for nonempty `pat`. -/
def pyReplace (s pat rep : String) : String :=
  String.mk (replaceChars pat.data rep.data s.data.length s.data)

/-- The rewrite loop of `_replace_variables`
(`for var, replacement in var_replacements.items(): ...`): each distinct
reference substring is processed in first-occurrence order; if it equals
the whole current string and quoting is off, the value flows through
type-preserved, otherwise every occurrence in the current string is
textually replaced.  `none` models the `AttributeError` Python would raise
if a replacement made the working value non-string while later
replacements are still pending. -/
def rewriteLoop (addQuotes : Bool) : List (String × Value) → Value → Option Value
  | [], acc => some acc
  | (var, repl) :: rest, acc =>
    match acc with
    | .str s =>
      if s == var && !addQuotes then rewriteLoop addQuotes rest repl
      else rewriteLoop addQuotes rest (.str (pyReplace s var (serializeRepl addQuotes repl)))
    | _ => none

/-- `Yaml._replace_variables(parsed_str, add_quotes)`: find the reference
substrings, resolve each distinct one, and rewrite the template.  The
environment is passed explicitly (`noenv` flag plus `os.environ.get`). -/
def replaceVariables (noenv : Bool) (envf : String → Option String)
    (vars : List (String × Value)) (parsedStr : String) (addQuotes : Bool) :
    Option Value :=
  let repls := (dedupFirst (findVars parsedStr)).map
    (fun v => (v, resolveVar (environ noenv envf) vars v))
  rewriteLoop addQuotes repls (.str parsedStr)

/-- Python `str.split('/')`: always returns at least one (possibly empty)
piece. -/
def splitSlashGo : List Char → List String
  | [] => [""]
  | c :: cs =>
    if c == '/' then "" :: splitSlashGo cs
    else
      match splitSlashGo cs with
      | [] => [String.mk [c]]
      | h :: t => String.mk (c :: h.data) :: t

/-- Python `structure.split('/')`. -/
def pySplitSlash (s : String) : List String :=
  splitSlashGo s.data

/-- Python `str.endswith(suffix)`. -/
def pyEndsWith (s suffix : String) : Bool :=
  suffix.data.isSuffixOf s.data

/-- An absolute filesystem path, as its list of components below the root
(`[]` is `/`).  `os.path.dirname` is `dropLast` and `os.path.basename` is
the last component (empty at the root), matching Python on absolute
paths. -/
def renderPath (cs : List String) : String :=
  "/" ++ String.intercalate "/" cs

/-- `os.path.basename` on an absolute path given by components. -/
def pathBasename (cs : List String) : String :=
  (cs.getLast?).getD ""

/-- The `for var in structure.split('/')[-2::-1]` loop of
`parse_structure`: walk one directory level up per remaining segment
(processed in reverse), inserting each `(section, dirname, abspath)`
triple at the front.  `revSegs` is the reversed list of all segments but
the last. -/
def walkPaths (abs : List String) : List String → List (String × String × List String)
  | [] => []
  | seg :: rest =>
    let up := abs.dropLast
    walkPaths up rest ++ [(seg, pathBasename up, up)]

/-- The ordered `paths` list of `parse_structure`: ancestors first, the
document itself (labelled with the literal `yaml`) last. -/
def structPaths (abs : List String) (structur : String) :
    List (String × String × List String) :=
  walkPaths abs (pySplitSlash structur).dropLast.reverse ++
    [("yaml", pathBasename abs, abs)]

/-- The error message of the `structure` validation in `parse_structure`. -/
def structureErrMsg (structur : String) : String :=
  "`structure` argument should end with \x22yaml\x22\nReceived: \x22" ++ structur ++ "\x22\x22"

/-- The `{section}_name` bindings of `parse_structure`, in `paths` order
(`self.variables.update({f'{s}_name': n for s, n, _ in paths})`). -/
def nameKVs (paths : List (String × String × List String)) : List (String × Value) :=
  paths.map (fun p => (p.1 ++ "_name", Value.str p.2.1))

/-- The `{section}_path` bindings of `parse_structure`, in `paths` order. -/
def pathKVs (paths : List (String × String × List String)) : List (String × Value) :=
  paths.map (fun p => (p.1 ++ "_path", Value.str (renderPath p.2.2)))

/-- The variable table built by `parse_structure` for a valid descriptor:
`{'structure': ...}` updated with the name bindings, then with the path
bindings (dict-update semantics throughout). -/
def structTable (abs : List String) (structur : String) : List (String × Value) :=
  let paths := structPaths abs structur
  let d0 : List (String × Value) := [("structure", Value.str structur)]
  let d1 := (nameKVs paths).foldl (fun d kv => dictInsert d kv.1 kv.2) d0
  (pathKVs paths).foldl (fun d kv => dictInsert d kv.1 kv.2) d1

/-- `Yaml.parse_structure`: validate the descriptor (`str.endswith('yaml')`),
walk the document's ancestors, and build the seed variable table.  `abs`
is `os.path.abspath(self.path)` as components; `structOpt` is
`self.get('structure')`, defaulting to `'yaml'`. -/
def parseStructure (abs : List String) (structOpt : Option String) :
    Except String (List (String × Value)) :=
  let structur := structOpt.getD "yaml"
  if pyEndsWith structur "yaml" then .ok (structTable abs structur)
  else .error (structureErrMsg structur)

/-- Whether an `Except` result is a success. -/
def exceptIsOk {ε α : Type} : Except ε α → Bool
  | .ok _ => true
  | .error _ => false

/-- The `parsed` dict of `parse_variables`: the document's `variables`
list of mappings, merged in order with later keys overwriting earlier
ones. -/
def parsedOf (items : List (List (String × Value))) : List (String × Value) :=
  items.foldl (fun d item => item.foldl (fun d' kv => dictInsert d' kv.1 kv.2) d) []

/-- The per-declaration loop of `parse_variables`: a string value is passed
through `_replace_variables` (seeing the table as grown so far), any other
value is stored verbatim. -/
def parseVariablesGo (noenv : Bool) (envf : String → Option String)
    (vars : List (String × Value)) : List (String × Value) →
    Option (List (String × Value))
  | [] => some vars
  | (k, v) :: rest =>
    match v with
    | .str s =>
      match replaceVariables noenv envf vars s false with
      | some v' => parseVariablesGo noenv envf (dictInsert vars k v') rest
      | none => none
    | v' => parseVariablesGo noenv envf (dictInsert vars k v') rest

/-- `Yaml.parse_variables`: merge the declared items, then resolve each in
document order, accumulating into the variable table. -/
def parseVariables (noenv : Bool) (envf : String → Option String)
    (vars : List (String × Value)) (items : List (List (String × Value))) :
    Option (List (String × Value)) :=
  parseVariablesGo noenv envf vars (parsedOf items)

/-- Characters shlex treats as whitespace token separators. -/
def isShlexSpace (c : Char) : Bool :=
  c == ' ' || c == '\t' || c == '\r' || c == '\n' || c == '\x0c'

mutual

/-- Core of POSIX `shlex.split` as used by `_run_command` (fuel-indexed):
whitespace separates tokens; `'...'` groups literally; `"..."` groups with
`\` escaping `\` and `"`; a bare `\` escapes the next character.  `cur` is
the token under construction, `started` whether one is open. -/
def shlexGo : Nat → Bool → List Char → List Char → List String
  | 0, started, cur, _ => if started then [String.mk cur.reverse] else []
  | _ + 1, started, cur, [] => if started then [String.mk cur.reverse] else []
  | n + 1, started, cur, c :: cs =>
    if isShlexSpace c then
      if started then String.mk cur.reverse :: shlexGo n false [] cs
      else shlexGo n false [] cs
    else if c == '\x27' then
      let lit := cs.takeWhile (fun d => d != '\x27')
      let rest := (cs.dropWhile (fun d => d != '\x27')).tail
      shlexGo n true (lit.reverse ++ cur) rest
    else if c == '\x22' then
      shlexDq n true cur cs
    else if c == '\\' then
      match cs with
      | [] => if started || !cur.isEmpty then [String.mk cur.reverse] else []
      | d :: ds => shlexGo n true (d :: cur) ds
    else
      shlexGo n true (c :: cur) cs

/-- Inside a double-quoted shlex group: `\` escapes `\` and `"`. -/
def shlexDq : Nat → Bool → List Char → List Char → List String
  | 0, started, cur, _ => if started then [String.mk cur.reverse] else []
  | _ + 1, started, cur, [] => if started then [String.mk cur.reverse] else []
  | n + 1, _, cur, c :: cs =>
    if c == '\x22' then shlexGo n true cur cs
    else if c == '\\' then
      match cs with
      | '\\' :: ds => shlexDq n true ('\\' :: cur) ds
      | '\x22' :: ds => shlexDq n true ('\x22' :: cur) ds
      | _ => shlexDq n true ('\\' :: cur) cs
    else shlexDq n true (c :: cur) cs

end

/-- `shlex.split(command_str)` (POSIX mode, the subset above). -/
def shlexSplit (s : String) : List String :=
  shlexGo (2 * s.data.length + 2) false [] s.data

/-- Python `repr` of one string as rendered inside `str(list)`:
single-quoted unless the string contains a single quote and no double
quote, with backslashes and quotes escaped. -/
def pyReprStr (s : String) : String :=
  let hasSq := s.data.contains '\x27'
  let hasDq := s.data.contains '\x22'
  if hasSq && !hasDq then
    "\x22" ++ String.mk (s.data.flatMap (fun c => if c == '\\' then ['\\', '\\'] else [c])) ++ "\x22"
  else
    "\x27" ++ String.mk (s.data.flatMap (fun c =>
      if c == '\\' then ['\\', '\\'] else if c == '\x27' then ['\\', '\x27'] else [c])) ++ "\x27"

/-- Python `'%s' % command_list`: `str` of a list of strings. -/
def pyReprStrList (l : List String) : String :=
  "[" ++ String.intercalate ", " (l.map pyReprStr) ++ "]"

/-- The error message `_run_command` raises for a non-zero exit code.
Because the subprocess is spawned with `stderr=subprocess.STDOUT`,
`r.stderr` is `None`, so the message always ends with `: None` — the
captured (merged) output is only printed, never placed in the error. -/
def commandFailMsg (args : List String) (code : Int) : String :=
  "Command `" ++ pyReprStrList args ++ "` failed.\nExit code " ++ toString code ++ ": None"

/-- The command loop of `run_script` feeding `_run_command`: each command
string is shlex-split and spawned (`spawn` returns the exit code and the
merged stdout/stderr text); a non-zero exit raises, aborting the rest.
Returns the argv lists actually spawned and the outcome. -/
def runCommands (spawn : List String → Int × String) :
    List String → List (List String) × Except String Unit
  | [] => ([], .ok ())
  | c :: rest =>
    let args := shlexSplit c
    let (code, _out) := spawn args
    if code == 0 then
      let (ex, r) := runCommands spawn rest
      (args :: ex, r)
    else
      ([args], .error (commandFailMsg args code))

/-- A word character is not any specific non-word character. -/
theorem isWordChar_beq_eq_false {c d : Char} (h : isWordChar c = true)
    (hd : isWordChar d = false) : (c == d) = false := by
  cases hb : c == d with
  | false => rfl
  | true =>
    have hcd : c = d := eq_of_beq hb
    subst hcd
    rw [h] at hd
    exact Bool.noConfusion hd

/-- Word characters are not stripped by `str.strip('${}')`. -/
theorem word_not_dollarBrace {c : Char} (h : isWordChar c = true) :
    isDollarBraceChar c = false := by
  unfold isDollarBraceChar
  rw [isWordChar_beq_eq_false h (by decide), isWordChar_beq_eq_false h (by decide),
    isWordChar_beq_eq_false h (by decide)]
  rfl

/-- The subkey scan finds nothing in a bracket-free string. -/
theorem subkeyScanGo_eq_nil : ∀ (n : Nat) (l : List Char),
    (∀ c ∈ l, (c == '[') = false) → subkeyScanGo n l = []
  | 0, l, _ => by cases l <;> rfl
  | _ + 1, [], _ => rfl
  | n + 1, c :: cs, h => by
    have hc := h c (List.mem_cons_self _ _)
    simp only [subkeyScanGo, hc, Bool.false_eq_true, if_false]
    exact subkeyScanGo_eq_nil n cs (fun c' hc' => h c' (List.mem_cons_of_mem _ hc'))

/-- `str.strip('${}')` on `$name` recovers the bare word-character name. -/
theorem stripChars_dollar_word {nm : String} (hne : nm.data ≠ [])
    (hw : ∀ c ∈ nm.data, isWordChar c = true) :
    stripChars isDollarBraceChar ("$" ++ nm) = nm := by
  unfold stripChars
  rw [String.data_append]
  obtain ⟨c, cs, hcs⟩ : ∃ c cs, nm.data = c :: cs := by
    cases h : nm.data with
    | nil => exact absurd h hne
    | cons c cs => exact ⟨c, cs, rfl⟩
  have hdrop : List.dropWhile isDollarBraceChar ("$".data ++ nm.data) = nm.data := by
    show List.dropWhile isDollarBraceChar ('$' :: nm.data) = nm.data
    rw [List.dropWhile_cons]
    simp only [show isDollarBraceChar '$' = true from rfl, if_true]
    rw [hcs, List.dropWhile_cons,
      word_not_dollarBrace (hw c (hcs ▸ List.mem_cons_self _ _))]
    simp
  rw [hdrop]
  obtain ⟨d, ds, hds⟩ : ∃ d ds, nm.data.reverse = d :: ds := by
    cases h : nm.data.reverse with
    | nil => exact absurd (by simpa using congrArg List.reverse h) hne
    | cons d ds => exact ⟨d, ds, rfl⟩
  have hdmem : d ∈ nm.data := List.mem_reverse.mp (hds ▸ List.mem_cons_self _ _)
  rw [hds, List.dropWhile_cons, word_not_dollarBrace (hw d hdmem)]
  simp only [Bool.false_eq_true, if_false]
  apply String.ext
  rw [← hds]
  simp

/-- The base-name match on `$name` returns the whole token when the name is
a nonempty word-character run. -/
theorem rawBase_dollar_word {nm : String} (hne : nm.data ≠ [])
    (hw : ∀ c ∈ nm.data, isWordChar c = true) :
    rawBase ("$" ++ nm) = "$" ++ nm := by
  obtain ⟨c, cs, hcs⟩ : ∃ c cs, nm.data = c :: cs := by
    cases h : nm.data with
    | nil => exact absurd h hne
    | cons c cs => exact ⟨c, cs, rfl⟩
  have hdata : ("$" ++ nm).data = '$' :: nm.data := by rw [String.data_append]; rfl
  have hhead : nm.data.head? ≠ some '\x7b' := by
    rw [hcs]
    intro h
    have : c = '\x7b' := by simpa using h
    subst this
    exact absurd (hw _ (hcs ▸ List.mem_cons_self _ _)) (by decide)
  unfold rawBase
  rw [hdata]
  simp only [List.head?_cons, List.tail_cons]
  rw [if_neg hhead, List.takeWhile_eq_self_iff.mpr hw, List.dropWhile_eq_nil_iff.mpr hw]
  simp only [List.head?_nil, reduceCtorEq, if_false, List.append_nil]
  apply String.ext
  rw [hdata]

/-- Claim C3: resolution misses are lenient and asymmetric: a bare
reference `$name` (no subkey chain) whose base name is absent from the
table resolves to the empty string whenever the environment lookup
contributes nothing (fallback disabled, or the variable unset), while a
failed subkey chain leaves the raw reference text in the output unchanged,
as in `resolve("$a['missing']", {a: {"b": 1}}, env=false, quote=false) =
"$a['missing']"`. -/
theorem c3_miss_asymmetry :
    (∀ (env : String → String) (vars : List (String × Value)) (nm : String),
      nm.data ≠ [] → (∀ c ∈ nm.data, isWordChar c = true) →
      assocLookup vars nm = none → env nm = "" →
      resolveVar env vars ("$" ++ nm) = Value.str "") ∧
    replaceVariables true (fun _ => none) [("a", Value.dict [("b", Value.int 1)])]
      "$a[\x27missing\x27]" false = some (Value.str "$a[\x27missing\x27]") := by
  refine ⟨fun env vars nm hne hw hlook henv => ?_, rfl⟩
  have hsub : subkeyScan ("$" ++ nm) = [] := by
    unfold subkeyScan
    apply subkeyScanGo_eq_nil
    intro c hc
    rw [String.data_append, show "$".data = ['$'] from rfl] at hc
    rcases List.mem_append.mp hc with h | h
    · have h' : c = '$' := by simpa using h
      subst h'
      rfl
    · exact isWordChar_beq_eq_false (hw c h) (by decide)
  have hdollar : startsWithDollar ("$" ++ nm) = true := by
    unfold startsWithDollar
    rw [String.data_append]
    rfl
  unfold resolveVar
  rw [hsub, rawBase_dollar_word hne hw]
  simp only [List.map_cons, List.map_nil, hdollar, if_true,
    stripChars_dollar_word hne hw, hlook, henv]
  rfl

/-- Claim C1 (counterexample): replacement order does affect the result.
For the template `$a $ab` with `a ↦ X`, `ab ↦ Y`, rewriting in the code's
first-occurrence order differs from the reverse order, and the actual
`resolve` result is not the order-independent value `X Y`: replacing `$a`
rewrites the `$a` inside the longer reference `$ab`. -/
theorem c1_counterexample :
    rewriteLoop false [("$a", Value.str "X"), ("$ab", Value.str "Y")] (Value.str "$a $ab") ≠
      rewriteLoop false [("$ab", Value.str "Y"), ("$a", Value.str "X")] (Value.str "$a $ab") ∧
    replaceVariables true (fun _ => none) [("a", Value.str "X"), ("ab", Value.str "Y")]
      "$a $ab" false ≠ some (Value.str "X Y") := by
  constructor
  · intro h
    have h' : some (Value.str "X Xb") = some (Value.str "X Y") := h
    injection h' with h1
    injection h1 with h2
    exact absurd h2 (by decide)
  · intro h
    have h' : some (Value.str "X Xb") = some (Value.str "X Y") := h
    injection h' with h1
    injection h1 with h2
    exact absurd h2 (by decide)

/-- Claim C1 (amended): substitutions are applied sequentially in
first-occurrence order, each rewriting every occurrence of its raw
substring in the current intermediate string, so replacing a reference can
alter the text of a distinct longer reference that contains it as a
prefix: `$a $ab` resolves to `X Xb` (not `X Y`), and `$a $a['x']` with
`a ↦ z` resolves to `z z['x']` (the unresolved chain's text is damaged). -/
theorem c1_sequential_rewrite :
    replaceVariables true (fun _ => none) [("a", Value.str "X"), ("ab", Value.str "Y")]
      "$a $ab" false = some (Value.str "X Xb") ∧
    replaceVariables true (fun _ => none) [("a", Value.str "z")]
      "$a $a[\x27x\x27]" false = some (Value.str "z z[\x27x\x27]") :=
  ⟨rfl, rfl⟩

/-- Claim C2 (counterexample): `$a[b]` is not matched as a single reference
with one subkey (unquoted non-numeric subkeys are not in the grammar), and
`${a}['b']` is not either (in the braced form, subkeys sit inside the
braces): the tokenizer yields `$a` resp. `${a}`. -/
theorem c2_counterexample :
    (findVars "$a[b]" = ["$a"] ∧ findVars "$a[b]" ≠ ["$a[b]"]) ∧
    (findVars "$\x7ba\x7d[\x27b\x27]" = ["$\x7ba\x7d"] ∧
      findVars "$\x7ba\x7d[\x27b\x27]" ≠ ["$\x7ba\x7d[\x27b\x27]"]) :=
  ⟨⟨rfl, by decide⟩, ⟨rfl, by decide⟩⟩

/-- Claim C2 (amended): the tokenizer scans left-to-right without overlap
and greedily over the full suffix chain, but subkey suffixes are only
`['lit']`, `["lit"]`, `[$name]` or `[digits]` — an unquoted non-numeric
`[b]` is not part of a reference — and in the braced form the suffixes
appear inside the braces, so `${a}['b']` matches only `${a}` while
`${a['b'][0]}` matches whole. -/
theorem c2_tokenizer :
    findVars "$a[\x27b\x27]" = ["$a[\x27b\x27]"] ∧
    findVars "$a[\x22b\x22]" = ["$a[\x22b\x22]"] ∧
    findVars "$a[12]" = ["$a[12]"] ∧
    findVars "$a[$k][\x27c\x27]" = ["$a[$k][\x27c\x27]"] ∧
    findVars "$\x7ba[\x27b\x27][0]\x7d" = ["$\x7ba[\x27b\x27][0]\x7d"] ∧
    findVars "$a[b]" = ["$a"] ∧
    findVars "$\x7ba\x7d[\x27b\x27]" = ["$\x7ba\x7d"] ∧
    findVars "x$a-$b" = ["$a", "$b"] :=
  ⟨rfl, rfl, rfl, rfl, rfl, rfl, rfl, rfl⟩

/-- Claim C4 (counterexample): `resolve("$a[$k]", {a: {"x": 5}, k: "x"},
env=false, quote=false)` does not return the string `"5"`: since the whole
template is the single reference and quoting is off, the value flows
through type-preserved and the result is the integer `5`. -/
theorem c4_counterexample :
    replaceVariables true (fun _ => none)
      [("a", Value.dict [("x", Value.int 5)]), ("k", Value.str "x")] "$a[$k]" false ≠
      some (Value.str "5") := by
  intro h
  have h' : some (Value.int 5) = some (Value.str "5") := h
  injection h' with h1
  injection h1

/-- Claim C4 (amended): a `$`-prefixed subkey is resolved against the table
(falling back to the environment when absent from the table) and the
resolved value is used as the effective subkey; the example returns the
integer `5`, type-preserved, rather than the string `"5"`. -/
theorem c4_nested_subkey :
    replaceVariables true (fun _ => none)
      [("a", Value.dict [("x", Value.int 5)]), ("k", Value.str "x")] "$a[$k]" false =
      some (Value.int 5) ∧
    replaceVariables false (fun n => if n == "k" then some "x" else none)
      [("a", Value.dict [("x", Value.int 5)])] "$a[$k]" false = some (Value.int 5) :=
  ⟨rfl, rfl⟩

/-- Claim C9: when a spawned command exits non-zero the run aborts before
executing any remaining command — but the raised error carries the
shlex-split command and the exit code followed by `None`, not the captured
merged output (`boom` below): `r.stderr` is always `None` because stderr
was redirected into stdout. -/
theorem c9_command_failure :
    runCommands (fun args => if args == ["false"] then (1, "boom") else (0, "ok"))
      ["false", "echo hi"] =
      ([["false"]], .error "Command `[\x27false\x27]` failed.\nExit code 1: None") :=
  rfl

/-- Subkey chains compose sequentially: applying a concatenated chain is
applying the first part, then the second on its result. -/
theorem chainApply_append : ∀ (v : Value) (ks1 ks2 : List Value),
    chainApply v (ks1 ++ ks2) = (chainApply v ks1).bind fun w => chainApply w ks2 := by
  intro v ks1
  induction ks1 generalizing v with
  | nil => intro ks2; cases v <;> rfl
  | cons k ks ih =>
    intro ks2
    cases v with
    | str s =>
      cases k with
      | int i =>
        simp only [List.cons_append, chainApply]
        cases pyIndex s.data i <;> simp [ih]
      | bool b =>
        simp only [List.cons_append, chainApply]
        cases pyIndex s.data (if b then 1 else 0) <;> simp [ih]
      | str s' => rfl
      | list xs => rfl
      | dict d => rfl
    | int n => rfl
    | bool b => rfl
    | list xs =>
      simp only [List.cons_append, chainApply]
      cases pyToInt k with
      | none => rfl
      | some i => simp [ih, Option.bind_assoc]
    | dict d =>
      cases k with
      | str s' =>
        simp only [List.cons_append, chainApply]
        simp [ih, Option.bind_assoc]
      | int i => rfl
      | bool b => rfl
      | list xs => rfl
      | dict d' => rfl

/-- Claim C5 (counterexample): a non-sequence current value is not treated
as a mapping: a string value is character-indexed by an integer subkey
(Python `str` subscription), so `$s[$i]` with `s ↦ "hi"`, `i ↦ 0` yields
`"h"` instead of the chain-miss passthrough the mapping treatment would
produce. -/
theorem c5_counterexample :
    replaceVariables true (fun _ => none) [("s", Value.str "hi"), ("i", Value.int 0)]
      "$s[$i]" false = some (Value.str "h") ∧
    some (Value.str "h") ≠ some (Value.str "$s[$i]") := by
  refine ⟨rfl, ?_⟩
  intro h
  injection h with h1
  injection h1 with h2
  exact absurd h2 (by decide)

/-- Claim C5 (amended): the subkey chain is applied sequentially in order
starting from the base value; a sequence coerces the subkey to an integer
index; a mapping is subscripted with the subkey as-is (so a string subkey
selects a string key, while an integer subkey misses on a string-keyed
mapping and passes the raw text through); a string value is
character-indexed by an integer subkey.  The claim's own example resolves
to `"first"`. -/
theorem c5_subkey_chain :
    (∀ (v : Value) (ks1 ks2 : List Value),
      chainApply v (ks1 ++ ks2) = (chainApply v ks1).bind fun w => chainApply w ks2) ∧
    replaceVariables true (fun _ => none)
      [("a", Value.dict [("b", Value.list [Value.str "first", Value.str "second"])])]
      "$a[\x27b\x27][0]" false = some (Value.str "first") ∧
    replaceVariables true (fun _ => none)
      [("a", Value.dict [("5", Value.str "v")]), ("i", Value.int 5)] "$a[$i]" false =
      some (Value.str "$a[$i]") ∧
    replaceVariables true (fun _ => none) [("s", Value.str "hi"), ("i", Value.int 0)]
      "$s[$i]" false = some (Value.str "h") :=
  ⟨chainApply_append, rfl, rfl, rfl⟩

/-- Claim C7 (counterexample): the validation is a plain `str.endswith`
check, not a last-segment check: `project/fooyaml`, whose last
`/`-separated segment is `fooyaml`, passes validation. -/
theorem c7_counterexample :
    exceptIsOk (parseStructure ["p", "t.yaml"] (some "project/fooyaml")) = true ∧
    (pySplitSlash "project/fooyaml").getLast? ≠ some "yaml" :=
  ⟨rfl, by decide⟩

/-- Claim C7 (amended): `parse_structure` fails, with a configuration error
naming the received value, exactly when the descriptor does not end with
the four characters `yaml` (a suffix check, not a segment check). -/
theorem c7_validation (abs : List String) (s : String) :
    (exceptIsOk (parseStructure abs (some s)) = true ↔ pyEndsWith s "yaml" = true) ∧
    (pyEndsWith s "yaml" = false →
      parseStructure abs (some s) = .error (structureErrMsg s)) := by
  have hred : parseStructure abs (some s) =
      if pyEndsWith s "yaml" then .ok (structTable abs s)
      else .error (structureErrMsg s) := rfl
  cases h : pyEndsWith s "yaml" with
  | true =>
    rw [hred, h]
    refine ⟨⟨fun _ => rfl, fun _ => ?_⟩, fun hf => Bool.noConfusion hf⟩
    simp [exceptIsOk]
  | false =>
    rw [hred, h]
    refine ⟨⟨fun hc => ?_, fun hc => absurd hc (by simp)⟩, fun _ => ?_⟩
    · rw [if_neg (by simp)] at hc
      exact hc
    · rw [if_neg (by simp)]

/-- Witness for C7 at a concrete invalid descriptor. -/
theorem c7_validation_witness :
    parseStructure ["a"] (some "nope") = .error (structureErrMsg "nope") :=
  (c7_validation ["a"] "nope").2 rfl

/-- Witness for C3 at a concrete absent name. -/
theorem c3_miss_asymmetry_witness :
    resolveVar (fun _ => "") [] ("$" ++ "zz") = Value.str "" :=
  c3_miss_asymmetry.1 (fun _ => "") [] "zz" (by decide) (by decide) rfl rfl

/-- Appending a fixed suffix is injective on strings. -/
theorem append_right_injective (t : String) :
    Function.Injective (fun s : String => s ++ t) := by
  intro a b h
  apply String.ext
  have h1 := congrArg String.data h
  simp only [String.data_append] at h1
  exact List.append_cancel_right h1

/-- A `_name` key never equals the `structure` key. -/
theorem key_name_ne_structure (s : String) : s ++ "_name" ≠ "structure" := by
  intro h
  have h2 : "_name".data.reverse ++ s.data.reverse = "structure".data.reverse := by
    have h1 := congrArg (fun x : String => x.data.reverse) h
    simp only [String.data_append, List.reverse_append] at h1
    exact h1
  rw [show "_name".data.reverse = ['e', 'm', 'a', 'n', '_'] from rfl,
    show "structure".data.reverse = ['e', 'r', 'u', 't', 'c', 'u', 'r', 't', 's'] from rfl] at h2
  simp only [List.cons_append] at h2
  injection h2 with h3 h4
  injection h4 with h5 _
  exact absurd h5 (by decide)

/-- A `_path` key never equals the `structure` key. -/
theorem key_path_ne_structure (s : String) : s ++ "_path" ≠ "structure" := by
  intro h
  have h2 : "_path".data.reverse ++ s.data.reverse = "structure".data.reverse := by
    have h1 := congrArg (fun x : String => x.data.reverse) h
    simp only [String.data_append, List.reverse_append] at h1
    exact h1
  rw [show "_path".data.reverse = ['h', 't', 'a', 'p', '_'] from rfl,
    show "structure".data.reverse = ['e', 'r', 'u', 't', 'c', 'u', 'r', 't', 's'] from rfl] at h2
  simp only [List.cons_append] at h2
  injection h2 with h3 _
  exact absurd h3 (by decide)

/-- A `_path` key never equals a `_name` key. -/
theorem key_path_ne_name (s t : String) : s ++ "_path" ≠ t ++ "_name" := by
  intro h
  have h2 : "_path".data.reverse ++ s.data.reverse =
      "_name".data.reverse ++ t.data.reverse := by
    have h1 := congrArg (fun x : String => x.data.reverse) h
    simp only [String.data_append, List.reverse_append] at h1
    exact h1
  rw [show "_path".data.reverse = ['h', 't', 'a', 'p', '_'] from rfl,
    show "_name".data.reverse = ['e', 'm', 'a', 'n', '_'] from rfl] at h2
  simp only [List.cons_append] at h2
  injection h2 with h3 _
  exact absurd h3 (by decide)

/-- Inserting a fresh key into a dict appends it at the end. -/
theorem dictInsert_of_not_mem {d : List (String × Value)} {k : String} (v : Value)
    (h : ∀ kv ∈ d, kv.1 ≠ k) : dictInsert d k v = d ++ [(k, v)] := by
  unfold dictInsert
  rw [if_neg]
  intro hany
  obtain ⟨kv, hkv, hbeq⟩ := List.any_eq_true.mp hany
  exact h kv hkv (eq_of_beq hbeq)

/-- Folding dict insertion over entries whose keys are fresh and pairwise
distinct appends them in order. -/
theorem foldl_dictInsert_append : ∀ (kvs d0 : List (String × Value)),
    (∀ kv ∈ kvs, ∀ kv' ∈ d0, kv.1 ≠ kv'.1) → (kvs.map Prod.fst).Nodup →
    kvs.foldl (fun d kv => dictInsert d kv.1 kv.2) d0 = d0 ++ kvs
  | [], d0, _, _ => by simp
  | (k, v) :: rest, d0, hdisj, hnodup => by
    simp only [List.foldl_cons]
    rw [dictInsert_of_not_mem v
      (fun kv' hkv' => Ne.symm (hdisj (k, v) (List.mem_cons_self _ _) kv' hkv'))]
    have hk_rest : ∀ kv ∈ rest, kv.1 ≠ k := by
      intro kv hkv
      have hmem : kv.1 ∈ rest.map Prod.fst := List.mem_map_of_mem _ hkv
      have hnot : k ∉ rest.map Prod.fst := (List.nodup_cons.mp hnodup).1
      intro he
      exact hnot (he ▸ hmem)
    have hrec := foldl_dictInsert_append rest (d0 ++ [(k, v)])
      (by
        intro kv hkv kv' hkv'
        rcases List.mem_append.mp hkv' with h' | h'
        · exact hdisj kv (List.mem_cons_of_mem _ hkv) kv' h'
        · have : kv' = (k, v) := List.mem_singleton.mp h'
          rw [this]
          exact hk_rest kv hkv)
      (List.nodup_cons.mp hnodup).2
    rw [hrec, List.append_assoc]
    rfl

/-- Python `split('/')` never returns an empty list. -/
theorem splitSlashGo_ne_nil : ∀ l : List Char, splitSlashGo l ≠ []
  | [] => by simp [splitSlashGo]
  | c :: cs => by
    simp only [splitSlashGo]
    split
    · simp
    · split
      · simp
      · simp

/-- The section labels of the walked ancestors are the processed segments,
restored to document order. -/
theorem walkPaths_fst : ∀ (abs segs : List String),
    (walkPaths abs segs).map Prod.fst = segs.reverse
  | _, [] => rfl
  | abs, seg :: rest => by
    simp only [walkPaths, List.map_append, walkPaths_fst _ rest, List.reverse_cons,
      List.map_cons, List.map_nil]

/-- One walked entry per processed segment. -/
theorem walkPaths_length : ∀ (abs segs : List String),
    (walkPaths abs segs).length = segs.length
  | _, [] => rfl
  | abs, seg :: rest => by simp [walkPaths, walkPaths_length _ rest]

/-- The section labels of `parse_structure`, in order: every segment but
the last, then the literal `yaml`. -/
theorem structPaths_fst (abs : List String) (s : String) :
    (structPaths abs s).map Prod.fst = (pySplitSlash s).dropLast ++ ["yaml"] := by
  unfold structPaths
  rw [List.map_append, walkPaths_fst, List.reverse_reverse]
  rfl

/-- One `paths` entry per `/`-separated segment of the descriptor. -/
theorem structPaths_length (abs : List String) (s : String) :
    (structPaths abs s).length = (pySplitSlash s).length := by
  unfold structPaths
  rw [List.length_append, walkPaths_length, List.length_reverse, List.length_dropLast]
  have h : 0 < (pySplitSlash s).length :=
    List.length_pos.mpr (splitSlashGo_ne_nil s.data)
  simp only [List.length_cons, List.length_nil]
  omega

/-- Keys of the name bindings. -/
theorem nameKVs_fst (paths : List (String × String × List String)) :
    (nameKVs paths).map Prod.fst = (paths.map Prod.fst).map (fun s => s ++ "_name") := by
  simp [nameKVs, List.map_map]

/-- Keys of the path bindings. -/
theorem pathKVs_fst (paths : List (String × String × List String)) :
    (pathKVs paths).map Prod.fst = (paths.map Prod.fst).map (fun s => s ++ "_path") := by
  simp [pathKVs, List.map_map]

/-- Claim C8 (counterexample): the well-formed descriptor `yaml/yaml`
(N = 2 segments, ending in `yaml`) produces a table of 3 entries, not
2·2+1 = 5: the duplicate section label makes the `{section}_name` and
`{section}_path` keys collide and dict update collapses them. -/
theorem c8_counterexample :
    parseStructure ["p", "t.yaml"] (some "yaml/yaml") =
      .ok [("structure", Value.str "yaml/yaml"), ("yaml_name", Value.str "t.yaml"),
        ("yaml_path", Value.str "/p/t.yaml")] ∧
    (structTable ["p", "t.yaml"] "yaml/yaml").length = 3 ∧
    (pySplitSlash "yaml/yaml").length = 2 ∧ (3 : Nat) ≠ 2 * 2 + 1 :=
  ⟨rfl, rfl, rfl, by decide⟩

/-- Claim C8 (amended): for every well-formed descriptor ending in `yaml`
with N segments whose section labels (all segments but the last, plus the
literal `yaml`) are pairwise distinct, `parse_structure` produces exactly
N name/path binding pairs plus one `structure` entry — 2N+1 table entries;
with duplicate labels the colliding keys collapse. -/
theorem c8_table_size (abs : List String) (s : String)
    (hend : pyEndsWith s "yaml" = true)
    (hnodup : ((pySplitSlash s).dropLast ++ ["yaml"]).Nodup) :
    parseStructure abs (some s) = .ok (structTable abs s) ∧
    (structTable abs s).length = 2 * (pySplitSlash s).length + 1 := by
  constructor
  · have hred : parseStructure abs (some s) =
        if pyEndsWith s "yaml" then .ok (structTable abs s)
        else .error (structureErrMsg s) := rfl
    rw [hred, hend]
    simp
  · have hsecs : (structPaths abs s).map Prod.fst = (pySplitSlash s).dropLast ++ ["yaml"] :=
      structPaths_fst abs s
    have hnames_nodup : ((nameKVs (structPaths abs s)).map Prod.fst).Nodup := by
      rw [nameKVs_fst, hsecs]
      exact List.Nodup.map (append_right_injective "_name") hnodup
    have hpaths_nodup : ((pathKVs (structPaths abs s)).map Prod.fst).Nodup := by
      rw [pathKVs_fst, hsecs]
      exact List.Nodup.map (append_right_injective "_path") hnodup
    have hname_key : ∀ kv ∈ nameKVs (structPaths abs s), ∃ p, kv.1 = p ++ "_name" := by
      intro kv hkv
      rcases List.mem_map.mp hkv with ⟨p, _, hp⟩
      exact ⟨p.1, by rw [← hp]⟩
    have hpath_key : ∀ kv ∈ pathKVs (structPaths abs s), ∃ p, kv.1 = p ++ "_path" := by
      intro kv hkv
      rcases List.mem_map.mp hkv with ⟨p, _, hp⟩
      exact ⟨p.1, by rw [← hp]⟩
    have h1 : (nameKVs (structPaths abs s)).foldl (fun d kv => dictInsert d kv.1 kv.2)
        [("structure", Value.str s)] =
        [("structure", Value.str s)] ++ nameKVs (structPaths abs s) := by
      apply foldl_dictInsert_append _ _ _ hnames_nodup
      intro kv hkv kv' hkv'
      have hkveq : kv' = ("structure", Value.str s) := List.mem_singleton.mp hkv'
      rcases hname_key kv hkv with ⟨p, hp⟩
      rw [hp, hkveq]
      exact key_name_ne_structure p
    have h2 : (pathKVs (structPaths abs s)).foldl (fun d kv => dictInsert d kv.1 kv.2)
        ([("structure", Value.str s)] ++ nameKVs (structPaths abs s)) =
        ([("structure", Value.str s)] ++ nameKVs (structPaths abs s)) ++
          pathKVs (structPaths abs s) := by
      apply foldl_dictInsert_append _ _ _ hpaths_nodup
      intro kv hkv kv' hkv'
      rcases hpath_key kv hkv with ⟨p, hp⟩
      rcases List.mem_append.mp hkv' with h' | h'
      · have hkveq : kv' = ("structure", Value.str s) := List.mem_singleton.mp h'
        rw [hp, hkveq]
        exact key_path_ne_structure p
      · rcases hname_key kv' h' with ⟨q, hq⟩
        rw [hp, hq]
        exact key_path_ne_name p q
    have hst : structTable abs s =
        (pathKVs (structPaths abs s)).foldl (fun d kv => dictInsert d kv.1 kv.2)
          ((nameKVs (structPaths abs s)).foldl (fun d kv => dictInsert d kv.1 kv.2)
            [("structure", Value.str s)]) := rfl
    rw [hst, h1, h2]
    simp only [List.length_append, List.length_cons, List.length_nil, nameKVs, pathKVs,
      List.length_map, structPaths_length abs s]
    omega

/-- Witness for C8 at the spec's example descriptor. -/
theorem c8_table_size_witness :
    parseStructure ["proj", "pkg", "t.yaml"] (some "project/package/yaml") =
      .ok (structTable ["proj", "pkg", "t.yaml"] "project/package/yaml") ∧
    (structTable ["proj", "pkg", "t.yaml"] "project/package/yaml").length =
      2 * (pySplitSlash "project/package/yaml").length + 1 :=
  c8_table_size ["proj", "pkg", "t.yaml"] "project/package/yaml" rfl (by decide)

/-- Claim C6: with the no-environment flag set, `resolve` is independent of
the process environment (any two environments give identical results on
every template and table) and an absent base name yields the empty string;
with fallback enabled, `$missing` on an empty table resolves to the
environment value of `missing`, or the empty string if unset. -/
theorem c6_env_independence :
    (∀ (tmpl : String) (vars : List (String × Value))
      (envf1 envf2 : String → Option String) (q : Bool),
      replaceVariables true envf1 vars tmpl q = replaceVariables true envf2 vars tmpl q) ∧
    (∀ envf : String → Option String,
      replaceVariables true envf [] "$missing" false = some (Value.str "")) ∧
    (∀ envf : String → Option String,
      replaceVariables false envf [] "$missing" false =
        some (Value.str ((envf "missing").getD ""))) := by
  refine ⟨fun tmpl vars envf1 envf2 q => ?_, fun _ => rfl, fun _ => rfl⟩
  have h : environ true envf1 = environ true envf2 := funext fun _ => rfl
  unfold replaceVariables
  rw [h]

/-- Overwriting entries with key `k'` does not change lookups of `k ≠ k'`. -/
theorem assocLookup_map_overwrite_ne {k' k : String} (v' : Value) (hne : k' ≠ k) :
    ∀ d : List (String × Value),
    assocLookup (d.map (fun kv => if kv.1 == k' then (k', v') else kv)) k = assocLookup d k
  | [] => rfl
  | (k0, v0) :: rest => by
    simp only [List.map_cons]
    by_cases hk0 : (k0 == k') = true
    · have hk0' : k0 = k' := eq_of_beq hk0
      subst hk0'
      rw [hk0]
      simp only [if_true]
      unfold assocLookup
      rw [beq_eq_false_iff_ne.mpr hne]
      simp only [Bool.false_eq_true, if_false]
      exact assocLookup_map_overwrite_ne v' hne rest
    · rw [Bool.not_eq_true] at hk0
      rw [hk0]
      simp only [Bool.false_eq_true, if_false]
      unfold assocLookup
      by_cases hk : (k0 == k) = true
      · rw [hk]
        simp
      · rw [Bool.not_eq_true] at hk
        rw [hk]
        simp only [Bool.false_eq_true, if_false]
        exact assocLookup_map_overwrite_ne v' hne rest

/-- Resolving a present key after an overwrite finds the new value. -/
theorem assocLookup_map_overwrite_self {k : String} (v : Value) :
    ∀ d : List (String × Value), d.any (fun kv => kv.1 == k) = true →
    assocLookup (d.map (fun kv => if kv.1 == k then (k, v) else kv)) k = some v
  | [], h => by simp at h
  | (k0, v0) :: rest, h => by
    simp only [List.map_cons]
    by_cases hk0 : (k0 == k) = true
    · rw [hk0]
      simp only [if_true]
      unfold assocLookup
      simp
    · rw [Bool.not_eq_true] at hk0
      rw [hk0]
      simp only [Bool.false_eq_true, if_false]
      unfold assocLookup
      rw [hk0]
      simp only [Bool.false_eq_true, if_false]
      apply assocLookup_map_overwrite_self
      simp only [List.any_cons, hk0, Bool.false_or] at h
      exact h

/-- Appending a fresh entry does not change lookups of other keys. -/
theorem assocLookup_append_single_ne {k' k : String} (v' : Value) (hne : k' ≠ k) :
    ∀ d : List (String × Value),
    assocLookup (d ++ [(k', v')]) k = assocLookup d k
  | [] => by
    rw [List.nil_append]
    show (if k' == k then some v' else assocLookup [] k) = none
    rw [beq_eq_false_iff_ne.mpr hne]
    rfl
  | (k0, v0) :: rest => by
    rw [List.cons_append]
    show (if k0 == k then some v0 else assocLookup (rest ++ [(k', v')]) k) =
      if k0 == k then some v0 else assocLookup rest k
    by_cases hk : (k0 == k) = true
    · rw [hk]
      simp
    · rw [Bool.not_eq_true] at hk
      rw [hk]
      simp only [Bool.false_eq_true, if_false]
      exact assocLookup_append_single_ne v' hne rest

/-- Looking up a key just appended to a dict that lacked it. -/
theorem assocLookup_append_single_self {k : String} (v : Value) :
    ∀ d : List (String × Value), (∀ kv ∈ d, (kv.1 == k) = false) →
    assocLookup (d ++ [(k, v)]) k = some v
  | [], _ => by
    rw [List.nil_append]
    show (if k == k then some v else assocLookup [] k) = some v
    simp
  | (k0, v0) :: rest, h => by
    rw [List.cons_append]
    show (if k0 == k then some v0 else assocLookup (rest ++ [(k, v)]) k) = some v
    rw [h (k0, v0) (List.mem_cons_self _ _)]
    simp only [Bool.false_eq_true, if_false]
    exact assocLookup_append_single_self v rest
      (fun kv hkv => h kv (List.mem_cons_of_mem _ hkv))

/-- `d[k] = v` makes `k` resolve to `v`. -/
theorem assocLookup_dictInsert_self (d : List (String × Value)) (k : String) (v : Value) :
    assocLookup (dictInsert d k v) k = some v := by
  unfold dictInsert
  split
  · exact assocLookup_map_overwrite_self v d (by assumption)
  · apply assocLookup_append_single_self v d
    intro kv hkv
    have hany : d.any (fun kv => kv.1 == k) = false := by
      rw [← Bool.not_eq_true]
      assumption
    have h2 := List.any_eq_false.mp hany kv hkv
    simpa using h2

/-- `d[k'] = v'` does not change the binding of any other key. -/
theorem assocLookup_dictInsert_ne (d : List (String × Value)) {k' k : String}
    (v' : Value) (hne : k' ≠ k) :
    assocLookup (dictInsert d k' v') k = assocLookup d k := by
  unfold dictInsert
  split
  · exact assocLookup_map_overwrite_ne v' hne d
  · exact assocLookup_append_single_ne v' hne d

/-- Overwriting an entry preserves the key list. -/
theorem keysOf_map_overwrite (k : String) (v : Value) :
    ∀ d : List (String × Value),
    keysOf (d.map (fun kv => if kv.1 == k then (k, v) else kv)) = keysOf d
  | [] => rfl
  | (k0, v0) :: rest => by
    simp only [List.map_cons, keysOf]
    by_cases hk0 : (k0 == k) = true
    · rw [hk0]
      simp only [if_true]
      have hrest := keysOf_map_overwrite k v rest
      simp only [keysOf] at hrest
      rw [hrest, eq_of_beq hk0]
    · rw [Bool.not_eq_true] at hk0
      rw [hk0]
      simp only [Bool.false_eq_true, if_false]
      have hrest := keysOf_map_overwrite k v rest
      simp only [keysOf] at hrest
      rw [hrest]

/-- Dict insertion keeps the keys unique. -/
theorem keysOf_dictInsert_nodup (d : List (String × Value)) (k : String) (v : Value)
    (h : (keysOf d).Nodup) : (keysOf (dictInsert d k v)).Nodup := by
  unfold dictInsert
  split
  · rw [keysOf_map_overwrite]
    exact h
  · have hany : d.any (fun kv => kv.1 == k) = false := by
      rw [← Bool.not_eq_true]
      assumption
    simp only [keysOf, List.map_append, List.map_cons, List.map_nil]
    rw [List.nodup_append]
    refine ⟨h, List.nodup_singleton _, ?_⟩
    intro x hx hxk
    have hxk' : x = k := by simpa using hxk
    rcases List.mem_map.mp hx with ⟨kv, hkv, hfst⟩
    have h2 := List.any_eq_false.mp hany kv hkv
    have hkk : kv.1 = k := hfst.trans hxk'
    exact h2 (by rw [hkk]; exact beq_self_eq_true k)

/-- A fold of dict insertions over any entries keeps the keys unique. -/
theorem foldl_dictInsert_keys_nodup :
    ∀ (kvs : List (String × Value)) (d : List (String × Value)),
    (keysOf d).Nodup → (keysOf (kvs.foldl (fun d' kv => dictInsert d' kv.1 kv.2) d)).Nodup
  | [], _, h => h
  | kv :: rest, d, h => by
    simp only [List.foldl_cons]
    exact foldl_dictInsert_keys_nodup rest _ (keysOf_dictInsert_nodup d kv.1 kv.2 h)

/-- The merged `parsed` dict of `parse_variables` has unique keys. -/
theorem parsedOf_keys_nodup (items : List (List (String × Value))) :
    (keysOf (parsedOf items)).Nodup := by
  unfold parsedOf
  suffices h : ∀ (its : List (List (String × Value))) (d : List (String × Value)),
      (keysOf d).Nodup →
      (keysOf (its.foldl (fun d' item =>
        item.foldl (fun d'' kv => dictInsert d'' kv.1 kv.2) d') d)).Nodup by
    exact h items [] List.nodup_nil
  intro its
  induction its with
  | nil => intro d h; exact h
  | cons item rest ih =>
    intro d h
    simp only [List.foldl_cons]
    exact ih _ (foldl_dictInsert_keys_nodup item d h)

/-- Processing declarations whose keys differ from `k` leaves the binding
of `k` in the accumulated table untouched. -/
theorem parseVariablesGo_lookup_preserved (noenv : Bool) (envf : String → Option String)
    {k : String} {v : Value} :
    ∀ (lst : List (String × Value)) (vars out : List (String × Value)),
    (∀ kv ∈ lst, kv.1 ≠ k) → assocLookup vars k = some v →
    parseVariablesGo noenv envf vars lst = some out → assocLookup out k = some v
  | [], vars, out, _, hl, hrun => by
    have : vars = out := by
      simpa [parseVariablesGo] using hrun
    rw [← this]
    exact hl
  | (k0, v0) :: rest, vars, out, hne, hl, hrun => by
    have hk0 : k0 ≠ k := hne (k0, v0) (List.mem_cons_self _ _)
    have hne' : ∀ kv ∈ rest, kv.1 ≠ k := fun kv hkv => hne kv (List.mem_cons_of_mem _ hkv)
    cases v0 with
    | str s =>
      simp only [parseVariablesGo] at hrun
      cases hrv : replaceVariables noenv envf vars s false with
      | none => rw [hrv] at hrun; exact Option.noConfusion hrun
      | some v' =>
        rw [hrv] at hrun
        exact parseVariablesGo_lookup_preserved noenv envf rest _ out hne'
          ((assocLookup_dictInsert_ne vars v' hk0).trans hl) hrun
    | int n =>
      exact parseVariablesGo_lookup_preserved noenv envf rest _ out hne'
        ((assocLookup_dictInsert_ne vars _ hk0).trans hl) hrun
    | bool b =>
      exact parseVariablesGo_lookup_preserved noenv envf rest _ out hne'
        ((assocLookup_dictInsert_ne vars _ hk0).trans hl) hrun
    | list xs =>
      exact parseVariablesGo_lookup_preserved noenv envf rest _ out hne'
        ((assocLookup_dictInsert_ne vars _ hk0).trans hl) hrun
    | dict kvs =>
      exact parseVariablesGo_lookup_preserved noenv envf rest _ out hne'
        ((assocLookup_dictInsert_ne vars _ hk0).trans hl) hrun

/-- Non-string declarations are inserted verbatim and stay verbatim. -/
theorem parseVariablesGo_mem_verbatim (noenv : Bool) (envf : String → Option String)
    {k : String} {v : Value} :
    ∀ (lst : List (String × Value)) (vars out : List (String × Value)),
    (keysOf lst).Nodup → (k, v) ∈ lst → v.isStr = false →
    parseVariablesGo noenv envf vars lst = some out → assocLookup out k = some v
  | [], _, _, _, hmem, _, _ => absurd hmem (List.not_mem_nil _)
  | (k0, v0) :: rest, vars, out, hnodup, hmem, hnstr, hrun => by
    rcases List.mem_cons.mp hmem with heq | hmem'
    · have hk : k0 = k := (congrArg Prod.fst heq).symm
      have hv : v0 = v := (congrArg Prod.snd heq).symm
      subst hk
      subst hv
      have hkeys : ∀ kv ∈ rest, kv.1 ≠ k0 := by
        intro kv hkv he
        have hk0mem : k0 ∉ keysOf rest :=
          (List.nodup_cons.mp (show (k0 :: keysOf rest).Nodup from hnodup)).1
        exact hk0mem (he ▸ List.mem_map_of_mem _ hkv)
      cases v0 with
      | str s => exact absurd hnstr (by simp [Value.isStr])
      | int n =>
        exact parseVariablesGo_lookup_preserved noenv envf rest _ out hkeys
          (assocLookup_dictInsert_self vars k0 _) hrun
      | bool b =>
        exact parseVariablesGo_lookup_preserved noenv envf rest _ out hkeys
          (assocLookup_dictInsert_self vars k0 _) hrun
      | list xs =>
        exact parseVariablesGo_lookup_preserved noenv envf rest _ out hkeys
          (assocLookup_dictInsert_self vars k0 _) hrun
      | dict kvs =>
        exact parseVariablesGo_lookup_preserved noenv envf rest _ out hkeys
          (assocLookup_dictInsert_self vars k0 _) hrun
    · have hnodup' : (keysOf rest).Nodup :=
        (List.nodup_cons.mp (by simpa [keysOf] using hnodup)).2
      cases v0 with
      | str s =>
        simp only [parseVariablesGo] at hrun
        cases hrv : replaceVariables noenv envf vars s false with
        | none => rw [hrv] at hrun; exact Option.noConfusion hrun
        | some v' =>
          rw [hrv] at hrun
          exact parseVariablesGo_mem_verbatim noenv envf rest _ out hnodup' hmem' hnstr hrun
      | int n =>
        exact parseVariablesGo_mem_verbatim noenv envf rest _ out hnodup' hmem' hnstr hrun
      | bool b =>
        exact parseVariablesGo_mem_verbatim noenv envf rest _ out hnodup' hmem' hnstr hrun
      | list xs =>
        exact parseVariablesGo_mem_verbatim noenv envf rest _ out hnodup' hmem' hnstr hrun
      | dict kvs =>
        exact parseVariablesGo_mem_verbatim noenv envf rest _ out hnodup' hmem' hnstr hrun

/-- Claim C10: only string-valued declarations pass through the resolution
engine; every declaration whose merged value is a sequence, mapping or
non-string scalar is stored in the variable table verbatim, so references
inside such values are never substituted. -/
theorem c10_nonstring_verbatim (noenv : Bool) (envf : String → Option String)
    (vars : List (String × Value)) (items : List (List (String × Value)))
    (k : String) (v : Value) (out : List (String × Value))
    (hmem : (k, v) ∈ parsedOf items) (hnstr : v.isStr = false)
    (hrun : parseVariables noenv envf vars items = some out) :
    assocLookup out k = some v :=
  parseVariablesGo_mem_verbatim noenv envf (parsedOf items) vars out
    (parsedOf_keys_nodup items) hmem hnstr hrun

/-- Witness for C10: a declared sequence containing a `$` reference is
stored verbatim. -/
theorem c10_nonstring_verbatim_witness :
    assocLookup [("lst", Value.list [Value.str "$x"])] "lst" =
      some (Value.list [Value.str "$x"]) :=
  c10_nonstring_verbatim true (fun _ => none) []
    [[("lst", Value.list [Value.str "$x"])]] "lst" (Value.list [Value.str "$x"])
    [("lst", Value.list [Value.str "$x"])] (List.Mem.head _) rfl rfl
